import Mathlib

/-!
FLTK Latin-1 / MacRoman transcoder (src/fl_encoding_latin1.cxx)

A shallow embedding of the two entry points fl_latin1_to_local and
fl_local_to_latin1, for both build configurations of the file, followed by
theorems about them.

Modelling conventions
* A uchar is a Fin 256.  The C int of the source is an Int; the two places
  where 32-bit behaviour matters (the cast of the strlen result and
  the expression (n + 257) & 0x7fffff00) reduce modulo 2^32 explicitly.
* The input pointer t is the list of bytes of the object it points to.  Reading
  past that list is a fault.  The input is taken not to alias the scratch block.
* The file-static pair (buf, n_buf) is the record Scratch, passed in and out of
  every call.  buf is none for the null pointer and some cells for a block of
  cells.length bytes.
* malloc is an Allocator value handed to each call: it decides whether the
  request succeeds and what the uninitialised bytes of the new block are.
* A store through the null pointer or past the end of the block is undefined
  behaviour in C; here it is an explicit Fault.
-/

namespace FlEncodingLatin1

/-- One byte: the uchar of the source. -/
abbrev uchar := Fin 256

/-- Table of the source: converts MSWindows-1252/Latin 1 into MacRoman encoding. -/
def latin2roman : List uchar := [
  0xdb, 0xc0, 0xe2, 0xc4, 0xe3, 0xc9, 0xa0, 0xe0, 0xf6, 0xe4, 0xc0, 0xdc, 0xce, 0xc0, 0xc0, 0xc0,
  0xc0, 0xd4, 0xd5, 0xd2, 0xd3, 0xa5, 0xd0, 0xd1, 0xf7, 0xaa, 0xc0, 0xdd, 0xcf, 0xc0, 0xc0, 0xd9,
  0xca, 0xc1, 0xa2, 0xa3, 0xc0, 0xb4, 0xc0, 0xa4, 0xac, 0xa9, 0xbb, 0xc7, 0xc2, 0xc0, 0xa8, 0xf8,
  0xa1, 0xb1, 0xc0, 0xc0, 0xab, 0xb5, 0xa6, 0xe1, 0xfc, 0xc0, 0xbc, 0xc8, 0xc0, 0xc0, 0xc0, 0xc0,
  0xcb, 0xe7, 0xe5, 0xcc, 0x80, 0x81, 0xae, 0x82, 0xe9, 0x83, 0xe6, 0xe8, 0xed, 0xea, 0xeb, 0xec,
  0xc0, 0x84, 0xf1, 0xee, 0xef, 0xcd, 0x85, 0xc0, 0xaf, 0xf4, 0xf2, 0xf3, 0x86, 0xc0, 0xc0, 0xa7,
  0x88, 0x87, 0x89, 0x8b, 0x8a, 0x8c, 0xbe, 0x8d, 0x8f, 0x8e, 0x90, 0x91, 0x93, 0x92, 0x94, 0x95,
  0xc0, 0x96, 0x98, 0x97, 0x99, 0x9b, 0x9a, 0xd6, 0xbf, 0x9d, 0x9c, 0x9e, 0x9f, 0xc0, 0xc0, 0xd8
]

/-- Table of the source: converts MacRoman into MSWindows-1252/Latin 1. -/
def roman2latin : List uchar := [
  0xc4, 0xc5, 0xc7, 0xc9, 0xd1, 0xd6, 0xdc, 0xe1, 0xe0, 0xe2, 0xe4, 0xe3, 0xe5, 0xe7, 0xe9, 0xe8,
  0xea, 0xeb, 0xed, 0xec, 0xee, 0xef, 0xf1, 0xf3, 0xf2, 0xf4, 0xf6, 0xf5, 0xfa, 0xf9, 0xfb, 0xfc,
  0x86, 0xb0, 0xa2, 0xa3, 0xa7, 0x95, 0xb6, 0xdf, 0xae, 0xa9, 0x99, 0xb4, 0xa8, 0xbf, 0xc6, 0xd8,
  0xbf, 0xb1, 0xbf, 0xbf, 0xa5, 0xb5, 0xbf, 0xbf, 0xbf, 0xbf, 0xbf, 0xaa, 0xba, 0xbf, 0xe6, 0xf8,
  0xbf, 0xa1, 0xac, 0xbf, 0x83, 0xbf, 0xbf, 0xab, 0xbb, 0x85, 0xa0, 0xc0, 0xc3, 0xd5, 0x8c, 0x9c,
  0x96, 0x97, 0x93, 0x94, 0x91, 0x92, 0xf7, 0xbf, 0xff, 0x9f, 0xbf, 0x80, 0x8b, 0x9b, 0xbf, 0xbf,
  0x87, 0xb7, 0x82, 0x84, 0x89, 0xc2, 0xca, 0xc1, 0xcb, 0xc8, 0xcd, 0xce, 0xcf, 0xcc, 0xd3, 0xd4,
  0xbf, 0xd2, 0xda, 0xdb, 0xd9, 0xbf, 0x88, 0x98, 0xaf, 0xbf, 0xbf, 0xbf, 0xb8, 0xbf, 0xbf, 0xbf
]

/-- What a call can run into where C leaves the behaviour undefined. -/
inductive Fault
  | null_write
  | write_oob
  | read_oob
  | no_terminator
  deriving DecidableEq, Repr

/-- The malloc of the C library as seen by one call: for a requested size it
either fails (none, the null pointer) or hands out a block of exactly that
many bytes whose contents are whatever the allocator chooses. -/
structure Allocator where
  malloc : Nat → Option (List uchar)
  malloc_size : ∀ k cells, malloc k = some cells → cells.length = k

/-- The two file-static variables of the source:
static char *buf = 0; static int n_buf = 0; -/
structure Scratch where
  buf : Option (List uchar)
  n_buf : Int

/-- The state of the statics at program start: buf = 0 and n_buf = 0. -/
def Scratch.initial : Scratch := { buf := none, n_buf := 0 }

/-- Number of bytes that can be stored through a pointer: none for null. -/
def avail (b : Option (List uchar)) : Nat :=
  match b with
  | none => 0
  | some cells => cells.length

/-- The byte at offset i of a block, when there is one. -/
def peek (b : Option (List uchar)) (i : Nat) : Option uchar :=
  match b with
  | none => none
  | some cells => cells[i]?

/-- The strlen of the C library: the index of the first zero byte.  When the
object holds no zero byte the scan leaves the object and the result is none. -/
def strlen : List uchar → Option Nat
  | [] => none
  | c :: cs => if c = 0 then some 0 else (strlen cs).map (· + 1)

/-- The conversion static_cast<int>(size_t): reduction modulo 2^32 into the
range of a 32-bit two-complement int. -/
def int_of_size_t (k : Nat) : Int :=
  ((k : Int) + 2147483648) % 4294967296 - 2147483648

/-- First statement of both entry points:
if (n==-1) n = static_cast<int>(strlen(t)); -/
def effective_length (t : List uchar) (n : Int) : Except Fault Int :=
  if n = -1 then
    match strlen t with
    | some k => .ok (int_of_size_t k)
    | none => .error .no_terminator
  else .ok n

/-- The expression (n + 257) & 0x7fffff00 on 32-bit ints.  The sum is taken
modulo 2^32 as a bit pattern; the mask clears the sign bit, so the masked
pattern is the value of the result. -/
def new_capacity (n : Int) : Int :=
  Int.ofNat (((n + 257) % 4294967296).toNat &&& 0x7fffff00)

/-- The sizing step of both entry points:
if (n<=n_buf) { n_buf = (n + 257) & 0x7fffff00; if (buf) free(buf);
buf = (char*)malloc(n_buf); } -/
def resize (a : Allocator) (s : Scratch) (n : Int) : Scratch :=
  if n ≤ s.n_buf then
    { n_buf := new_capacity n, buf := a.malloc (new_capacity n).toNat }
  else s

/-- A store of one byte at offset i from the start of the scratch block. -/
def store (b : Option (List uchar)) (i : Nat) (v : uchar) :
    Except Fault (Option (List uchar)) :=
  match b with
  | none => .error .null_write
  | some cells =>
    if i < cells.length then .ok (some (cells.set i v)) else .error .write_oob

namespace Apple

/-- The loop of fl_latin1_to_local, by the number of iterations left:
for ( ; n>0; n--) { uchar c = *src++;
if (c>127) *dst = latin2roman[c-128]; else *dst = c; }
The list is what src points to, dst is the offset of the destination pointer
from buf; the source does not advance dst. -/
def loop_latin1_to_local :
    Nat → List uchar → Nat → Option (List uchar) → Except Fault (Option (List uchar))
  | 0, _, _, b => .ok b
  | _ + 1, [], _, _ => .error .read_oob
  | k + 1, c :: src, dst, b =>
    if c.val > 127 then
      (store b dst (latin2roman.getD (c.val - 128) 0)).bind
        (fun b1 => loop_latin1_to_local k src dst b1)
    else
      (store b dst c).bind (fun b1 => loop_latin1_to_local k src dst b1)

/-- The loop of fl_local_to_latin1, by the number of iterations left:
for ( ; n>0; n--) { uchar c = *src++;
if (c>127) *dst++ = roman2latin[c-128]; else *dst++ = c; } -/
def loop_local_to_latin1 :
    Nat → List uchar → Nat → Option (List uchar) → Except Fault (Option (List uchar))
  | 0, _, _, b => .ok b
  | _ + 1, [], _, _ => .error .read_oob
  | k + 1, c :: src, dst, b =>
    if c.val > 127 then
      (store b dst (roman2latin.getD (c.val - 128) 0)).bind
        (fun b1 => loop_local_to_latin1 k src (dst + 1) b1)
    else
      (store b dst c).bind (fun b1 => loop_local_to_latin1 k src (dst + 1) b1)

/-- The entry point fl_latin1_to_local of the __APPLE__ branch.  The pointer it
returns is buf, the buf field of the resulting state. -/
def fl_latin1_to_local (a : Allocator) (s : Scratch) (t : List uchar) (n : Int) :
    Except Fault Scratch :=
  (effective_length t n).bind fun m =>
    (loop_latin1_to_local m.toNat t 0 (resize a s m).buf).bind fun b =>
      .ok { buf := b, n_buf := (resize a s m).n_buf }

/-- The entry point fl_local_to_latin1 of the __APPLE__ branch.  The pointer it
returns is buf, the buf field of the resulting state. -/
def fl_local_to_latin1 (a : Allocator) (s : Scratch) (t : List uchar) (n : Int) :
    Except Fault Scratch :=
  (effective_length t n).bind fun m =>
    (loop_local_to_latin1 m.toNat t 0 (resize a s m).buf).bind fun b =>
      .ok { buf := b, n_buf := (resize a s m).n_buf }

end Apple

namespace Other

/-- The entry point fl_latin1_to_local of the #else branch: return t;
The branch declares no statics; the state is threaded through untouched. -/
def fl_latin1_to_local (s : Scratch) (t : List uchar) (_n : Int) : List uchar × Scratch :=
  (t, s)

/-- The entry point fl_local_to_latin1 of the #else branch: return t; -/
def fl_local_to_latin1 (s : Scratch) (t : List uchar) (_n : Int) : List uchar × Scratch :=
  (t, s)

end Other

/-- An allocator that always succeeds and hands out blocks filled with v. -/
def fill_allocator (v : uchar) : Allocator where
  malloc k := some (List.replicate k v)
  malloc_size := by
    intro k cells h
    simp only [Option.some.injEq] at h
    rw [← h, List.length_replicate]

/-- The scratch state a first call with length 0 leaves behind when the
allocator fills its blocks with v: a block of 256 bytes and n_buf = 256. -/
def Scratch.block256 (v : uchar) : Scratch :=
  { buf := some (List.replicate 256 v), n_buf := 256 }

/-- Per-byte image of the forward direction in the words of the spec: bytes
above 127 go through the table latin2roman, the others are copied. -/
def to_local_byte (c : uchar) : uchar :=
  if c.val > 127 then latin2roman.getD (c.val - 128) 0 else c

/-- Per-byte image of the inverse direction in the words of the spec: bytes
above 127 go through the table roman2latin, the others are copied. -/
def to_latin1_byte (c : uchar) : uchar :=
  if c.val > 127 then roman2latin.getD (c.val - 128) 0 else c

/-- The two entry points of the file. -/
inductive Entry
  | latin1_to_local
  | local_to_latin1
  deriving DecidableEq, Repr

/-- One call of an entry point: which one, the allocator it meets, the input
and the length argument. -/
structure Call where
  entry : Entry
  alloc : Allocator
  t : List uchar
  n : Int

/-- One call of the __APPLE__ branch on a scratch state. -/
def Call.run (c : Call) (s : Scratch) : Except Fault Scratch :=
  match c.entry with
  | .latin1_to_local => Apple.fl_latin1_to_local c.alloc s c.t c.n
  | .local_to_latin1 => Apple.fl_local_to_latin1 c.alloc s c.t c.n

/-- A sequence of calls in program order, each on the statics the previous one
left behind.  A fault ends the run. -/
def run_calls : List Call → Scratch → Except Fault Scratch
  | [], s => .ok s
  | c :: cs, s => (c.run s).bind (run_calls cs)

/-- The lengths for which n + 257 does not overflow a 32-bit int:
-1 <= n <= 2^31 - 258, and for the sentinel the same bound on the length that
strlen finds. -/
def Call.in_range (c : Call) : Prop :=
  -1 ≤ c.n ∧ c.n ≤ 2147483390 ∧
    (c.n = -1 → ∀ k, strlen c.t = some k → (k : Int) ≤ 2147483390)

/-- The rounding in the words of the spec, align(length + headroom, quantum)
with quantum 256, read as rounding up: the least multiple of 256 that is not
below x. -/
def spec_align_up (x : Int) : Int :=
  (x + 255) / 256 * 256

/-- A short program: an empty call of fl_local_to_latin1, then a call of
fl_latin1_to_local with the sentinel length on a zero-terminated input. -/
def sample_calls : List Call :=
  [{ entry := .local_to_latin1, alloc := fill_allocator 0, t := [], n := 0 },
   { entry := .latin1_to_local, alloc := fill_allocator 0, t := [0x41, 0x00], n := -1 }]

set_option maxRecDepth 100000 in
theorem table_roundtrip_latin1 : ∀ c : uchar,
    (to_local_byte c ≠ 0xC0 → to_latin1_byte (to_local_byte c) = c) ∧
    (to_local_byte c = 0xC0 → to_latin1_byte (to_local_byte c) = 0xBF) := by
  decide

set_option maxRecDepth 100000 in
theorem table_roundtrip_roman : ∀ c : uchar,
    (to_latin1_byte c ≠ 0xBF → to_local_byte (to_latin1_byte c) = c) ∧
    (to_latin1_byte c = 0xBF → to_local_byte (to_latin1_byte c) = 0xC0) := by
  decide


/-! ## The store primitive -/

theorem store_ok (cells : List uchar) (i : Nat) (v : uchar) (h : i < cells.length) :
    store (some cells) i v = .ok (some (cells.set i v)) := by
  simp [store, h]

theorem store_frame (b b1 : Option (List uchar)) (i : Nat) (v : uchar)
    (h : store b i v = .ok b1) :
    avail b1 = avail b ∧ ∀ j, j ≠ i → peek b1 j = peek b j := by
  cases b with
  | none => simp [store] at h
  | some cells =>
    by_cases hi : i < cells.length
    · rw [store_ok cells i v hi] at h
      cases h
      refine ⟨by simp [avail], ?_⟩
      intro j hj
      simp only [peek]
      rw [List.getElem?_set_ne (Ne.symm hj)]
    · simp [store, hi] at h

/-! ## The two loops, one step at a time -/

theorem loop_local_step (k : Nat) (c : uchar) (src : List uchar) (dst : Nat)
    (b : Option (List uchar)) :
    Apple.loop_local_to_latin1 (k + 1) (c :: src) dst b =
      (store b dst (to_latin1_byte c)).bind
        (fun b1 => Apple.loop_local_to_latin1 k src (dst + 1) b1) := by
  by_cases h : c.val > 127 <;> simp [Apple.loop_local_to_latin1, to_latin1_byte, h]

theorem loop_latin1_step (k : Nat) (c : uchar) (src : List uchar) (dst : Nat)
    (b : Option (List uchar)) :
    Apple.loop_latin1_to_local (k + 1) (c :: src) dst b =
      (store b dst (to_local_byte c)).bind
        (fun b1 => Apple.loop_latin1_to_local k src dst b1) := by
  by_cases h : c.val > 127 <;> simp [Apple.loop_latin1_to_local, to_local_byte, h]

/-- With enough input and enough room the inverse loop succeeds and the block
afterwards holds the mapped input on the window it was given and its old
contents elsewhere. -/
theorem loop_local_ok : ∀ (k : Nat) (src : List uchar) (dst : Nat) (cells : List uchar),
    k ≤ src.length → dst + k ≤ cells.length →
    ∃ out, Apple.loop_local_to_latin1 k src dst (some cells) = .ok (some out) ∧
      out.length = cells.length ∧
      (∀ i, i < k → out[dst + i]? = (src[i]?).map to_latin1_byte) ∧
      (∀ j, j < dst ∨ dst + k ≤ j → out[j]? = cells[j]?) := by
  intro k
  induction k with
  | zero =>
    intro src dst cells _ _
    exact ⟨cells, by simp [Apple.loop_local_to_latin1], rfl, by simp, by simp⟩
  | succ k ih =>
    intro src dst cells hs hd
    cases src with
    | nil => simp at hs
    | cons c src =>
      have hlt : dst < cells.length := by omega
      obtain ⟨out, hrun, hlen, hwin, hout⟩ :=
        ih src (dst + 1) (cells.set dst (to_latin1_byte c))
          (by simpa using hs) (by simp; omega)
      refine ⟨out, ?_, by simpa using hlen, ?_, ?_⟩
      · rw [loop_local_step, store_ok cells dst _ hlt]
        exact hrun
      · intro i hi
        cases i with
        | zero =>
          have := hout dst (Or.inl (Nat.lt_succ_self dst))
          simp only [Nat.add_zero, List.getElem?_cons_zero, Option.map_some']
          rw [this, List.getElem?_set_self hlt]
        | succ i =>
          have := hwin i (by omega)
          simp only [List.getElem?_cons_succ]
          rw [← this]
          congr 1
          omega
      · intro j hj
        have := hout j (by omega)
        rw [this, List.getElem?_set_ne (by omega)]

/-- The same for any destination pointer, the null pointer included (which
has room for no byte, so only the empty loop runs on it). -/
theorem loop_local_total (k : Nat) (src : List uchar) (dst : Nat) (b : Option (List uchar))
    (hs : k ≤ src.length) (hd : dst + k ≤ avail b) :
    ∃ b1, Apple.loop_local_to_latin1 k src dst b = .ok b1 ∧ avail b1 = avail b ∧
      (∀ i, i < k → peek b1 (dst + i) = (src[i]?).map to_latin1_byte) ∧
      (∀ j, j < dst ∨ dst + k ≤ j → peek b1 j = peek b j) := by
  cases b with
  | none =>
    have hk : k = 0 := by simp [avail] at hd; omega
    subst hk
    exact ⟨none, by simp [Apple.loop_local_to_latin1], rfl, by simp, by simp⟩
  | some cells =>
    obtain ⟨out, hrun, hlen, hwin, hout⟩ := loop_local_ok k src dst cells hs hd
    exact ⟨some out, hrun, by simpa [avail] using hlen, hwin, hout⟩

/-- Whatever the inverse loop is started on, when it finishes it has left the
size of the block and every byte outside its window as they were. -/
theorem loop_local_frame : ∀ (k : Nat) (src : List uchar) (dst : Nat)
    (b b1 : Option (List uchar)),
    Apple.loop_local_to_latin1 k src dst b = .ok b1 →
    avail b1 = avail b ∧ ∀ j, j < dst ∨ dst + k ≤ j → peek b1 j = peek b j := by
  intro k
  induction k with
  | zero =>
    intro src dst b b1 h
    simp only [Apple.loop_local_to_latin1, Except.ok.injEq] at h
    subst h
    exact ⟨rfl, fun _ _ => rfl⟩
  | succ k ih =>
    intro src dst b b1 h
    cases src with
    | nil => simp [Apple.loop_local_to_latin1] at h
    | cons c src =>
      rw [loop_local_step] at h
      cases hst : store b dst (to_latin1_byte c) with
      | error e => rw [hst] at h; simp [Except.bind] at h
      | ok b2 =>
        rw [hst] at h
        obtain ⟨hav, hfr⟩ := ih src (dst + 1) b2 b1 h
        obtain ⟨hav2, hfr2⟩ := store_frame b b2 dst _ hst
        refine ⟨hav.trans hav2, ?_⟩
        intro j hj
        rw [hfr j (by omega), hfr2 j (by omega)]

/-- With at least one byte of room the forward loop succeeds; it changes the
block at the one offset it was given, where it leaves the image of the last
byte it read. -/
theorem loop_latin1_ok : ∀ (k : Nat) (src : List uchar) (dst : Nat) (cells : List uchar),
    k ≤ src.length → dst < cells.length →
    ∃ out, Apple.loop_latin1_to_local k src dst (some cells) = .ok (some out) ∧
      out.length = cells.length ∧
      (k = 0 → out = cells) ∧
      (∀ i, k = i + 1 → out[dst]? = (src[i]?).map to_local_byte) ∧
      (∀ j, j ≠ dst → out[j]? = cells[j]?) := by
  intro k
  induction k with
  | zero =>
    intro src dst cells _ _
    exact ⟨cells, by simp [Apple.loop_latin1_to_local], rfl, fun _ => rfl,
      by intro i hi; omega, fun _ _ => rfl⟩
  | succ k ih =>
    intro src dst cells hs hd
    cases src with
    | nil => simp at hs
    | cons c src =>
      obtain ⟨out, hrun, hlen, hzero, hlast, hout⟩ :=
        ih src dst (cells.set dst (to_local_byte c)) (by simpa using hs) (by simpa using hd)
      refine ⟨out, ?_, by simpa using hlen, by intro h; omega, ?_, ?_⟩
      · rw [loop_latin1_step, store_ok cells dst _ hd]
        exact hrun
      · intro i hi
        cases i with
        | zero =>
          have hk : k = 0 := by omega
          rw [hzero hk]
          simp only [List.getElem?_cons_zero, Option.map_some']
          rw [List.getElem?_set_self hd]
        | succ i =>
          simp only [List.getElem?_cons_succ]
          exact hlast i (by omega)
      · intro j hj
        rw [hout j hj, List.getElem?_set_ne (Ne.symm hj)]

/-- Whatever the forward loop is started on, when it finishes it has left the
size of the block and every byte other than the one at its offset as they
were, and the empty loop changes nothing. -/
theorem loop_latin1_frame : ∀ (k : Nat) (src : List uchar) (dst : Nat)
    (b b1 : Option (List uchar)),
    Apple.loop_latin1_to_local k src dst b = .ok b1 →
    avail b1 = avail b ∧ (k = 0 → b1 = b) ∧ ∀ j, j ≠ dst → peek b1 j = peek b j := by
  intro k
  induction k with
  | zero =>
    intro src dst b b1 h
    simp only [Apple.loop_latin1_to_local, Except.ok.injEq] at h
    subst h
    exact ⟨rfl, fun _ => rfl, fun _ _ => rfl⟩
  | succ k ih =>
    intro src dst b b1 h
    cases src with
    | nil => simp [Apple.loop_latin1_to_local] at h
    | cons c src =>
      rw [loop_latin1_step] at h
      cases hst : store b dst (to_local_byte c) with
      | error e => rw [hst] at h; simp [Except.bind] at h
      | ok b2 =>
        rw [hst] at h
        obtain ⟨hav, _, hfr⟩ := ih src dst b2 b1 h
        obtain ⟨hav2, hfr2⟩ := store_frame b b2 dst _ hst
        refine ⟨hav.trans hav2, by intro hk; omega, ?_⟩
        intro j hj
        rw [hfr j hj, hfr2 j hj]

/-! ## The length argument -/

theorem effective_length_of_ne (t : List uchar) (n : Int) (h : n ≠ -1) :
    effective_length t n = .ok n := by
  simp [effective_length, h]

theorem int_of_size_t_small (k : Nat) (h : k < 2147483648) : int_of_size_t k = (k : Int) := by
  unfold int_of_size_t
  omega

theorem effective_length_sentinel (t : List uchar) (k : Nat) (h : strlen t = some k) :
    effective_length t (-1) = .ok (int_of_size_t k) := by
  simp [effective_length, h]

/-- The scan of strlen stops at the first zero byte. -/
theorem strlen_first_zero : ∀ (t : List uchar) (k : Nat),
    t[k]? = some 0 → (∀ i, i < k → t[i]? ≠ some 0) → strlen t = some k := by
  intro t
  induction t with
  | nil => intro k hz _; simp at hz
  | cons c cs ih =>
    intro k hz hfirst
    cases k with
    | zero =>
      simp only [List.getElem?_cons_zero, Option.some.injEq] at hz
      simp [strlen, hz]
    | succ k =>
      have hc : c ≠ 0 := by
        intro h
        exact hfirst 0 (Nat.succ_pos k) (by simp [h])
      have hrec : strlen cs = some k := by
        apply ih k
        · simpa using hz
        · intro i hi
          have := hfirst (i + 1) (by omega)
          simpa using this
      simp [strlen, hc, hrec]

/-! ## The entry points on a non-negative length -/

/-- The inverse entry point on an explicit length, with room for the output
after the sizing step. -/
theorem local_to_latin1_entry (a : Allocator) (s : Scratch) (t : List uchar) (n : Int)
    (hn : 0 ≤ n) (hlen : n ≤ (t.length : Int)) (hbuf : n.toNat ≤ avail (resize a s n).buf) :
    ∃ r, Apple.fl_local_to_latin1 a s t n = .ok r ∧
      r.n_buf = (resize a s n).n_buf ∧
      avail r.buf = avail (resize a s n).buf ∧
      (∀ i, i < n.toNat → peek r.buf i = (t[i]?).map to_latin1_byte) ∧
      (∀ j, n.toNat ≤ j → peek r.buf j = peek (resize a s n).buf j) := by
  obtain ⟨b1, hrun, hav, hwin, hout⟩ :=
    loop_local_total n.toNat t 0 (resize a s n).buf (by omega) (by omega)
  refine ⟨{ buf := b1, n_buf := (resize a s n).n_buf }, ?_, rfl, hav, ?_, ?_⟩
  · simp only [Apple.fl_local_to_latin1, effective_length_of_ne t n (by omega), Except.bind, hrun]
  · intro i hi
    simpa using hwin i hi
  · intro j hj
    exact hout j (Or.inr (by omega))

/-- The forward entry point on an explicit positive length, with room for one
byte after the sizing step. -/
theorem latin1_to_local_entry (a : Allocator) (s : Scratch) (t : List uchar) (n : Int)
    (hn : 1 ≤ n) (hlen : n ≤ (t.length : Int)) (hbuf : 1 ≤ avail (resize a s n).buf) :
    ∃ r, Apple.fl_latin1_to_local a s t n = .ok r ∧
      r.n_buf = (resize a s n).n_buf ∧
      avail r.buf = avail (resize a s n).buf ∧
      peek r.buf 0 = (t[n.toNat - 1]?).map to_local_byte ∧
      (∀ j, j ≠ 0 → peek r.buf j = peek (resize a s n).buf j) := by
  cases hb : (resize a s n).buf with
  | none => rw [hb] at hbuf; simp [avail] at hbuf
  | some cells =>
    rw [hb] at hbuf
    obtain ⟨out, hrun, hlen2, _, hlast, hout⟩ :=
      loop_latin1_ok n.toNat t 0 cells (by omega) (by simpa [avail] using hbuf)
    refine ⟨{ buf := some out, n_buf := (resize a s n).n_buf }, ?_, rfl, ?_, ?_, ?_⟩
    · simp only [Apple.fl_latin1_to_local, effective_length_of_ne t n (by omega), Except.bind,
        hb, hrun]
    · simpa [avail] using hlen2
    · exact hlast (n.toNat - 1) (by omega)
    · intro j hj
      exact hout j hj

/-- Either entry point, when it returns, has left the capacity, the size of
the block and every byte at an offset from the length upwards as the sizing
step made them. -/
theorem entry_frame (a : Allocator) (s r : Scratch) (t : List uchar) (n : Int) (hn : 0 ≤ n)
    (h : Apple.fl_latin1_to_local a s t n = .ok r ∨ Apple.fl_local_to_latin1 a s t n = .ok r) :
    r.n_buf = (resize a s n).n_buf ∧ avail r.buf = avail (resize a s n).buf ∧
      ∀ j, n.toNat ≤ j → peek r.buf j = peek (resize a s n).buf j := by
  rcases h with h | h
  · simp only [Apple.fl_latin1_to_local, effective_length_of_ne t n (by omega), Except.bind] at h
    cases hl : Apple.loop_latin1_to_local n.toNat t 0 (resize a s n).buf with
    | error e => rw [hl] at h; simp at h
    | ok b1 =>
      rw [hl] at h
      simp only [Except.ok.injEq] at h
      subst h
      obtain ⟨hav, hzero, hfr⟩ := loop_latin1_frame _ _ _ _ _ hl
      refine ⟨rfl, hav, ?_⟩
      intro j hj
      by_cases h0 : n.toNat = 0
      · rw [hzero h0]
      · exact hfr j (by omega)
  · simp only [Apple.fl_local_to_latin1, effective_length_of_ne t n (by omega), Except.bind] at h
    cases hl : Apple.loop_local_to_latin1 n.toNat t 0 (resize a s n).buf with
    | error e => rw [hl] at h; simp at h
    | ok b1 =>
      rw [hl] at h
      simp only [Except.ok.injEq] at h
      subst h
      obtain ⟨hav, hfr⟩ := loop_local_frame _ _ _ _ _ hl
      exact ⟨rfl, hav, fun j hj => hfr j (Or.inr (by omega))⟩

/-! ## Position-by-position transcoding -/

/-- C1: fl_local_to_latin1 transcodes position by position.  For every input t,
every length n with 0 <= n <= |t| and every scratch state and allocator under
which the block has room for n bytes after the sizing step, the call returns
and the block it returns holds, at every i < n, roman2latin[t[i] - 128] when
t[i] > 127 and t[i] otherwise.  A zero byte of the input is a zero byte of the
output at the same position, and a call from any other such state and
allocator gives the same bytes at the positions below n. -/
theorem local_to_latin1_positionwise (a a2 : Allocator) (s s2 : Scratch) (t : List uchar)
    (n : Int) (hn : 0 ≤ n) (hlen : n ≤ (t.length : Int))
    (hbuf : n.toNat ≤ avail (resize a s n).buf)
    (hbuf2 : n.toNat ≤ avail (resize a2 s2 n).buf) :
    ∃ r r2, Apple.fl_local_to_latin1 a s t n = .ok r ∧
      Apple.fl_local_to_latin1 a2 s2 t n = .ok r2 ∧
      ∀ (i : Nat) (hi : i < t.length), (i : Int) < n →
        peek r.buf i =
            some (if t[i].val > 127 then roman2latin.getD (t[i].val - 128) 0 else t[i]) ∧
          (t[i] = 0 → peek r.buf i = some 0) ∧
          peek r2.buf i = peek r.buf i := by
  obtain ⟨r, hr, _, _, hwin, _⟩ := local_to_latin1_entry a s t n hn hlen hbuf
  obtain ⟨r2, hr2, _, _, hwin2, _⟩ := local_to_latin1_entry a2 s2 t n hn hlen hbuf2
  refine ⟨r, r2, hr, hr2, ?_⟩
  intro i hi hin
  have h1 := hwin i (by omega)
  have h2 := hwin2 i (by omega)
  rw [List.getElem?_eq_getElem hi] at h1 h2
  simp only [Option.map_some'] at h1 h2
  refine ⟨by rw [h1]; rfl, ?_, by rw [h1, h2]⟩
  intro hz
  rw [h1, hz]
  rfl

set_option maxRecDepth 100000 in
/-- Instance of the theorem for C1: the three bytes 0x41, 0x00, 0xD2 with length 3, once
from the state left by an empty first call and once from a one-byte state. -/
theorem local_to_latin1_positionwise_witness :
    (0 : Int) ≤ 3 ∧ (3 : Int) ≤ (([0x41, 0x00, 0xD2] : List uchar).length : Int) ∧
    (3 : Int).toNat ≤ avail (resize (fill_allocator 0xEE) (Scratch.block256 0) 3).buf ∧
    (3 : Int).toNat ≤ avail (resize (fill_allocator 0) (Scratch.mk (some [7]) 3) 3).buf ∧
    ∃ r r2,
      Apple.fl_local_to_latin1 (fill_allocator 0xEE) (Scratch.block256 0) [0x41, 0x00, 0xD2] 3
        = .ok r ∧
      Apple.fl_local_to_latin1 (fill_allocator 0) (Scratch.mk (some [7]) 3) [0x41, 0x00, 0xD2] 3
        = .ok r2 ∧
      ∀ (i : Nat) (hi : i < ([0x41, 0x00, 0xD2] : List uchar).length), (i : Int) < 3 →
        peek r.buf i =
            some (if ([0x41, 0x00, 0xD2] : List uchar)[i].val > 127
              then roman2latin.getD (([0x41, 0x00, 0xD2] : List uchar)[i].val - 128) 0
              else ([0x41, 0x00, 0xD2] : List uchar)[i]) ∧
          (([0x41, 0x00, 0xD2] : List uchar)[i] = 0 → peek r.buf i = some 0) ∧
          peek r2.buf i = peek r.buf i :=
  ⟨by decide, by decide, by decide, by decide,
    local_to_latin1_positionwise (fill_allocator 0xEE) (fill_allocator 0) (Scratch.block256 0)
      (Scratch.mk (some [7]) 3) [0x41, 0x00, 0xD2] 3 (by decide) (by decide) (by decide)
      (by decide)⟩

set_option maxRecDepth 100000 in
/-- C2: fl_latin1_to_local on the two bytes 0x41, 0x93 with length 2, called in
the state an empty first call leaves behind (a block of 256 bytes), with an
allocator that fills new blocks with 0xEE.  The block has room for the two
bytes after the sizing step and the call returns, but the block it returns
starts 0xD2, 0xEE rather than 0x41, 0xD2: both stores went to offset 0, and
offset 1 still holds what malloc left there. -/
theorem latin1_to_local_two_bytes :
    Apple.fl_latin1_to_local (fill_allocator 0) Scratch.initial [] 0
        = .ok (Scratch.block256 0) ∧
      (2 : Int).toNat ≤ avail (resize (fill_allocator 0xEE) (Scratch.block256 0) 2).buf ∧
      Apple.fl_latin1_to_local (fill_allocator 0xEE) (Scratch.block256 0) [0x41, 0x93] 2
        = .ok { buf := some (0xD2 :: List.replicate 255 0xEE), n_buf := 256 } ∧
      to_local_byte 0x41 = 0x41 ∧ to_local_byte 0x93 = 0xD2 :=
  ⟨rfl, by decide, rfl, rfl, rfl⟩

/-! ## Single bytes -/

/-- C3: per-byte mapping of both entry points.  For every byte c, every scratch
state and allocator under which the block has room for one byte after the
sizing step, each entry point called on the one-byte input [c] with length 1
returns, and the first byte of the block it returns is c when c <= 127 and
latin2roman[c - 128] (for fl_latin1_to_local) or roman2latin[c - 128] (for
fl_local_to_latin1) when c >= 128. -/
theorem single_byte_mapping (a : Allocator) (s : Scratch) (c : uchar)
    (hbuf : 1 ≤ avail (resize a s 1).buf) :
    (∃ r, Apple.fl_latin1_to_local a s [c] 1 = .ok r ∧
      (c.val ≤ 127 → peek r.buf 0 = some c) ∧
      (128 ≤ c.val → peek r.buf 0 = some (latin2roman.getD (c.val - 128) 0))) ∧
    (∃ r, Apple.fl_local_to_latin1 a s [c] 1 = .ok r ∧
      (c.val ≤ 127 → peek r.buf 0 = some c) ∧
      (128 ≤ c.val → peek r.buf 0 = some (roman2latin.getD (c.val - 128) 0))) := by
  obtain ⟨r, hr, _, _, hlast, _⟩ :=
    latin1_to_local_entry a s [c] 1 (by decide) (by simp) hbuf
  obtain ⟨r2, hr2, _, _, hwin, _⟩ :=
    local_to_latin1_entry a s [c] 1 (by decide) (by simp) (by simpa using hbuf)
  have h2 := hwin 0 (by decide)
  simp only [Int.toNat_one, Nat.sub_self, List.getElem?_cons_zero, Option.map_some'] at hlast h2
  refine ⟨⟨r, hr, ?_, ?_⟩, ⟨r2, hr2, ?_, ?_⟩⟩
  · intro hc
    rw [hlast, to_local_byte, if_neg (by omega)]
  · intro hc
    rw [hlast, to_local_byte, if_pos (by omega)]
  · intro hc
    rw [h2, to_latin1_byte, if_neg (by omega)]
  · intro hc
    rw [h2, to_latin1_byte, if_pos (by omega)]

set_option maxRecDepth 100000 in
/-- Instance of the theorem for C3 at the byte 0x93, in the state an empty first call leaves
behind. -/
theorem single_byte_mapping_witness :
    1 ≤ avail (resize (fill_allocator 0) (Scratch.block256 0) 1).buf ∧
    (∃ r, Apple.fl_latin1_to_local (fill_allocator 0) (Scratch.block256 0) [0x93] 1 = .ok r ∧
      (((0x93 : uchar)).val ≤ 127 → peek r.buf 0 = some 0x93) ∧
      (128 ≤ ((0x93 : uchar)).val →
        peek r.buf 0 = some (latin2roman.getD (((0x93 : uchar)).val - 128) 0))) ∧
    (∃ r, Apple.fl_local_to_latin1 (fill_allocator 0) (Scratch.block256 0) [0x93] 1 = .ok r ∧
      (((0x93 : uchar)).val ≤ 127 → peek r.buf 0 = some 0x93) ∧
      (128 ≤ ((0x93 : uchar)).val →
        peek r.buf 0 = some (roman2latin.getD (((0x93 : uchar)).val - 128) 0))) :=
  ⟨by decide, single_byte_mapping (fill_allocator 0) (Scratch.block256 0) 0x93 (by decide)⟩

/-! ## The sizing guard -/

set_option maxRecDepth 100000 in
/-- C4: the two calls the claim names.  The very first call of either entry
point with length 1 skips the sizing step (1 <= 0 is false), so buf is still
the null pointer when the loop stores through it, whatever the allocator and
the input byte.  And with capacity 256, as left by an empty first call,
fl_local_to_latin1 with length 10000 skips the sizing step again
(10000 <= 256 is false) and stores past the end of the 256-byte block. -/
theorem sizing_guard_skips_allocation :
    (∀ (a : Allocator) (c : uchar),
      Apple.fl_latin1_to_local a Scratch.initial [c] 1 = .error .null_write ∧
      Apple.fl_local_to_latin1 a Scratch.initial [c] 1 = .error .null_write) ∧
    Apple.fl_local_to_latin1 (fill_allocator 0) Scratch.initial [] 0
        = .ok (Scratch.block256 0) ∧
    resize (fill_allocator 0) (Scratch.block256 0) 10000 = Scratch.block256 0 ∧
    Apple.fl_local_to_latin1 (fill_allocator 0) (Scratch.block256 0)
        (List.replicate 10000 0x41) 10000 = .error .write_oob := by
  refine ⟨?_, rfl, rfl, rfl⟩
  intro a c
  constructor
  · by_cases h : c.val > 127 <;>
      simp [Apple.fl_latin1_to_local, effective_length, resize, Scratch.initial,
        Apple.loop_latin1_to_local, store, Except.bind, h]
  · by_cases h : c.val > 127 <;>
      simp [Apple.fl_local_to_latin1, effective_length, resize, Scratch.initial,
        Apple.loop_local_to_latin1, store, Except.bind, h]

set_option maxRecDepth 100000 in
/-- C5: the first of the two calls of the scenario, ten bytes with length 10
from the initial state.  For either entry point and any allocator the sizing
step is skipped (10 <= 0 is false) and the first store of the loop goes
through the null pointer, so the first call does not complete. -/
theorem reuse_first_call_faults (a : Allocator) :
    resize a Scratch.initial 10 = Scratch.initial ∧
    Apple.fl_latin1_to_local a Scratch.initial (List.replicate 10 0x41) 10
      = .error .null_write ∧
    Apple.fl_local_to_latin1 a Scratch.initial (List.replicate 10 0x41) 10
      = .error .null_write :=
  ⟨rfl, rfl, rfl⟩

/-! ## Round trips on single bytes -/

/-- C6: round trip Latin-1 -> MacRoman -> Latin-1 on single bytes.  For every
byte c, with room for one byte after the sizing step of each call,
fl_latin1_to_local on [c] returns with a first byte x = f(c), and
fl_local_to_latin1 on [x] returns with a first byte y = g(f(c)), where
y = c whenever x is not 0xC0, y = 0xBF whenever x = 0xC0, and so y is always
c or 0xBF. -/
theorem roundtrip_latin1_roman_latin1 (a1 a2 : Allocator) (s1 s2 : Scratch) (c : uchar)
    (hb1 : 1 ≤ avail (resize a1 s1 1).buf) (hb2 : 1 ≤ avail (resize a2 s2 1).buf) :
    ∃ r1 x r2 y,
      Apple.fl_latin1_to_local a1 s1 [c] 1 = .ok r1 ∧ peek r1.buf 0 = some x ∧
      Apple.fl_local_to_latin1 a2 s2 [x] 1 = .ok r2 ∧ peek r2.buf 0 = some y ∧
      (x ≠ 0xC0 → y = c) ∧ (x = 0xC0 → y = 0xBF) ∧ (y = c ∨ y = 0xBF) := by
  obtain ⟨r1, hr1, _, _, hx, _⟩ :=
    latin1_to_local_entry a1 s1 [c] 1 (by decide) (by simp) hb1
  obtain ⟨r2, hr2, _, _, hwin, _⟩ :=
    local_to_latin1_entry a2 s2 [to_local_byte c] 1 (by decide) (by simp) (by simpa using hb2)
  have hy := hwin 0 (by decide)
  simp only [Int.toNat_one, Nat.sub_self, List.getElem?_cons_zero, Option.map_some'] at hx hy
  have htab := table_roundtrip_latin1 c
  refine ⟨r1, to_local_byte c, r2, to_latin1_byte (to_local_byte c), hr1, hx, hr2, hy,
    htab.1, htab.2, ?_⟩
  by_cases h : to_local_byte c = 0xC0
  · exact Or.inr (htab.2 h)
  · exact Or.inl (htab.1 h)

set_option maxRecDepth 100000 in
/-- Instance of the theorem for C6 at the byte 0x93, with the two calls evaluated:
f(0x93) = latin2roman[0x13] = 0xD2 and g(0xD2) = 0x93. -/
theorem roundtrip_latin1_roman_latin1_witness :
    1 ≤ avail (resize (fill_allocator 0) (Scratch.block256 0) 1).buf ∧
    latin2roman.getD 0x13 0 = 0xD2 ∧
    Apple.fl_latin1_to_local (fill_allocator 0) (Scratch.block256 0) [0x93] 1
      = .ok { buf := some (0xD2 :: List.replicate 255 0), n_buf := 256 } ∧
    Apple.fl_local_to_latin1 (fill_allocator 0) (Scratch.block256 0) [0xD2] 1
      = .ok { buf := some (0x93 :: List.replicate 255 0), n_buf := 256 } ∧
    ∃ r1 x r2 y,
      Apple.fl_latin1_to_local (fill_allocator 0) (Scratch.block256 0) [0x93] 1 = .ok r1 ∧
      peek r1.buf 0 = some x ∧
      Apple.fl_local_to_latin1 (fill_allocator 0) (Scratch.block256 0) [x] 1 = .ok r2 ∧
      peek r2.buf 0 = some y ∧
      (x ≠ 0xC0 → y = 0x93) ∧ (x = 0xC0 → y = 0xBF) ∧ (y = 0x93 ∨ y = 0xBF) :=
  ⟨by decide, rfl, rfl, rfl,
    roundtrip_latin1_roman_latin1 (fill_allocator 0) (fill_allocator 0) (Scratch.block256 0)
      (Scratch.block256 0) 0x93 (by decide) (by decide)⟩

/-- C7: round trip MacRoman -> Latin-1 -> MacRoman on single bytes.  For every
byte c, with room for one byte after the sizing step of each call,
fl_local_to_latin1 on [c] returns with a first byte x = g(c), and
fl_latin1_to_local on [x] returns with a first byte y = f(g(c)), where
y = c whenever x is not 0xBF, y = 0xC0 whenever x = 0xBF, and so y is always
c or 0xC0. -/
theorem roundtrip_roman_latin1_roman (a1 a2 : Allocator) (s1 s2 : Scratch) (c : uchar)
    (hb1 : 1 ≤ avail (resize a1 s1 1).buf) (hb2 : 1 ≤ avail (resize a2 s2 1).buf) :
    ∃ r1 x r2 y,
      Apple.fl_local_to_latin1 a1 s1 [c] 1 = .ok r1 ∧ peek r1.buf 0 = some x ∧
      Apple.fl_latin1_to_local a2 s2 [x] 1 = .ok r2 ∧ peek r2.buf 0 = some y ∧
      (x ≠ 0xBF → y = c) ∧ (x = 0xBF → y = 0xC0) ∧ (y = c ∨ y = 0xC0) := by
  obtain ⟨r1, hr1, _, _, hwin, _⟩ :=
    local_to_latin1_entry a1 s1 [c] 1 (by decide) (by simp) (by simpa using hb1)
  obtain ⟨r2, hr2, _, _, hy, _⟩ :=
    latin1_to_local_entry a2 s2 [to_latin1_byte c] 1 (by decide) (by simp) hb2
  have hx := hwin 0 (by decide)
  simp only [Int.toNat_one, Nat.sub_self, List.getElem?_cons_zero, Option.map_some'] at hx hy
  have htab := table_roundtrip_roman c
  refine ⟨r1, to_latin1_byte c, r2, to_local_byte (to_latin1_byte c), hr1, hx, hr2, hy,
    htab.1, htab.2, ?_⟩
  by_cases h : to_latin1_byte c = 0xBF
  · exact Or.inr (htab.2 h)
  · exact Or.inl (htab.1 h)

set_option maxRecDepth 100000 in
/-- Instance of the theorem for C7 at the MacRoman byte 0xB0 (infinity), which Latin-1 lacks:
g(0xB0) = 0xBF and f(0xBF) = 0xC0. -/
theorem roundtrip_roman_latin1_roman_witness :
    1 ≤ avail (resize (fill_allocator 0) (Scratch.block256 0) 1).buf ∧
    Apple.fl_local_to_latin1 (fill_allocator 0) (Scratch.block256 0) [0xB0] 1
      = .ok { buf := some (0xBF :: List.replicate 255 0), n_buf := 256 } ∧
    Apple.fl_latin1_to_local (fill_allocator 0) (Scratch.block256 0) [0xBF] 1
      = .ok { buf := some (0xC0 :: List.replicate 255 0), n_buf := 256 } ∧
    ∃ r1 x r2 y,
      Apple.fl_local_to_latin1 (fill_allocator 0) (Scratch.block256 0) [0xB0] 1 = .ok r1 ∧
      peek r1.buf 0 = some x ∧
      Apple.fl_latin1_to_local (fill_allocator 0) (Scratch.block256 0) [x] 1 = .ok r2 ∧
      peek r2.buf 0 = some y ∧
      (x ≠ 0xBF → y = 0xB0) ∧ (x = 0xBF → y = 0xC0) ∧ (y = 0xB0 ∨ y = 0xC0) :=
  ⟨by decide, rfl, rfl,
    roundtrip_roman_latin1_roman (fill_allocator 0) (fill_allocator 0) (Scratch.block256 0)
      (Scratch.block256 0) 0xB0 (by decide) (by decide)⟩

/-! ## The sentinel length -/

/-- C8: sentinel length.  For each entry point, every scratch state and
allocator, and every input t whose first zero byte is at index k with
k < 2^31, the call with n = -1 has the same outcome (the same resulting
scratch state, hence the same returned block and capacity, or the same fault)
as the call with the explicit length k. -/
theorem sentinel_length (a : Allocator) (s : Scratch) (t : List uchar) (k : Nat)
    (hz : t[k]? = some 0) (hfirst : ∀ i, i < k → t[i]? ≠ some 0) (h32 : k < 2147483648) :
    Apple.fl_latin1_to_local a s t (-1) = Apple.fl_latin1_to_local a s t (k : Int) ∧
    Apple.fl_local_to_latin1 a s t (-1) = Apple.fl_local_to_latin1 a s t (k : Int) := by
  have hs := strlen_first_zero t k hz hfirst
  have h1 := effective_length_sentinel t k hs
  rw [int_of_size_t_small k h32] at h1
  have h2 := effective_length_of_ne t (k : Int) (by omega)
  constructor
  · simp only [Apple.fl_latin1_to_local, h1, h2]
  · simp only [Apple.fl_local_to_latin1, h1, h2]

set_option maxRecDepth 100000 in
/-- Instance of the theorem for C8: the input 0x41, 0xD2, 0x00, 0x42, first zero at index 2,
with both calls of fl_local_to_latin1 evaluated. -/
theorem sentinel_length_witness :
    ([0x41, 0xD2, 0x00, 0x42] : List uchar)[2]? = some 0 ∧
    (∀ i, i < 2 → ([0x41, 0xD2, 0x00, 0x42] : List uchar)[i]? ≠ some 0) ∧
    2 < 2147483648 ∧
    Apple.fl_local_to_latin1 (fill_allocator 0xEE) (Scratch.block256 0)
        [0x41, 0xD2, 0x00, 0x42] (-1)
      = .ok { buf := some (0x41 :: 0x93 :: List.replicate 254 0xEE), n_buf := 256 } ∧
    (Apple.fl_latin1_to_local (fill_allocator 0xEE) (Scratch.block256 0)
        [0x41, 0xD2, 0x00, 0x42] (-1)
      = Apple.fl_latin1_to_local (fill_allocator 0xEE) (Scratch.block256 0)
        [0x41, 0xD2, 0x00, 0x42] ((2 : Nat) : Int) ∧
    Apple.fl_local_to_latin1 (fill_allocator 0xEE) (Scratch.block256 0)
        [0x41, 0xD2, 0x00, 0x42] (-1)
      = Apple.fl_local_to_latin1 (fill_allocator 0xEE) (Scratch.block256 0)
        [0x41, 0xD2, 0x00, 0x42] ((2 : Nat) : Int)) :=
  ⟨by decide, by decide, by decide, rfl,
    sentinel_length (fill_allocator 0xEE) (Scratch.block256 0) [0x41, 0xD2, 0x00, 0x42] 2
      (by decide) (by decide) (by decide)⟩

/-! ## Nothing is written from the length upwards -/

/-- C9: no terminator is appended.  For each entry point, every input, every
scratch state and allocator and every length n >= 0, a call that returns has
left every byte of the scratch block at an offset j >= n exactly as the sizing
step left it, whatever that content was; in particular the byte at offset n is
the one the block had after the sizing step and has not been set to zero.  The
size of the block is unchanged as well. -/
theorem no_terminator_appended (a : Allocator) (s r : Scratch) (t : List uchar) (n : Int)
    (hn : 0 ≤ n)
    (h : Apple.fl_latin1_to_local a s t n = .ok r ∨ Apple.fl_local_to_latin1 a s t n = .ok r) :
    (∀ j, n.toNat ≤ j → peek r.buf j = peek (resize a s n).buf j) ∧
      peek r.buf n.toNat = peek (resize a s n).buf n.toNat ∧
      avail r.buf = avail (resize a s n).buf := by
  obtain ⟨_, hav, hfr⟩ := entry_frame a s r t n hn h
  exact ⟨hfr, hfr n.toNat (Nat.le_refl _), hav⟩

set_option maxRecDepth 100000 in
/-- Instance of the theorem for C9: two bytes through fl_local_to_latin1 into a fresh block
that malloc left filled with 0xEE; offset 2 still holds 0xEE afterwards. -/
theorem no_terminator_appended_witness :
    (0 : Int) ≤ 2 ∧
    Apple.fl_local_to_latin1 (fill_allocator 0xEE) (Scratch.block256 0) [0x41, 0xD2] 2
      = .ok { buf := some (0x41 :: 0x93 :: List.replicate 254 0xEE), n_buf := 256 } ∧
    peek (resize (fill_allocator 0xEE) (Scratch.block256 0) 2).buf 2 = some 0xEE ∧
    peek (some (0x41 :: 0x93 :: List.replicate 254 (0xEE : uchar))) 2 = some 0xEE ∧
    ((∀ j, (2 : Int).toNat ≤ j →
        peek (some (0x41 :: 0x93 :: List.replicate 254 (0xEE : uchar))) j
          = peek (resize (fill_allocator 0xEE) (Scratch.block256 0) 2).buf j) ∧
      peek (some (0x41 :: 0x93 :: List.replicate 254 (0xEE : uchar))) (2 : Int).toNat
        = peek (resize (fill_allocator 0xEE) (Scratch.block256 0) 2).buf (2 : Int).toNat ∧
      avail (some (0x41 :: 0x93 :: List.replicate 254 (0xEE : uchar)))
        = avail (resize (fill_allocator 0xEE) (Scratch.block256 0) 2).buf) :=
  ⟨by decide, rfl, rfl, rfl,
    no_terminator_appended (fill_allocator 0xEE) (Scratch.block256 0)
      { buf := some (0x41 :: 0x93 :: List.replicate 254 0xEE), n_buf := 256 }
      [0x41, 0xD2] 2 (by decide) (Or.inr rfl)⟩

/-! ## The identity build -/

/-- C10: identity build.  In the #else branch, for every input t, every length
n (negative values and -1 included) and every scratch state, both
fl_latin1_to_local and fl_local_to_latin1 return t itself, and the scratch
state comes back as it went in: the result does not depend on it and it is
not modified. -/
theorem identity_build (s : Scratch) (t : List uchar) (n : Int) :
    Other.fl_latin1_to_local s t n = (t, s) ∧ Other.fl_local_to_latin1 s t n = (t, s) :=
  ⟨rfl, rfl⟩

/-! ## The capacity expression -/

/-- Masking with 0x7fffff00 keeps bits 8 to 30: it drops bit 31 and upwards and
rounds what is left down to a multiple of 256. -/
theorem land_mask (x : Nat) : x &&& 0x7fffff00 = (x % 2147483648) / 256 * 256 := by
  apply Nat.eq_of_testBit_eq
  intro i
  have hm : (0x7fffff00 : Nat) = 2 ^ 8 * (2 ^ 23 - 1) := by norm_num
  have h256 : (256 : Nat) = 2 ^ 8 := by norm_num
  have h31 : (2147483648 : Nat) = 2 ^ 31 := by norm_num
  rw [hm, h256, h31, Nat.mul_comm (x % 2 ^ 31 / 2 ^ 8) (2 ^ 8), Nat.testBit_and,
    Nat.testBit_mul_pow_two, Nat.testBit_mul_pow_two,
    Nat.testBit_two_pow_sub_one, ← Nat.shiftRight_eq_div_pow, Nat.testBit_shiftRight,
    Nat.testBit_mod_two_pow]
  by_cases h8 : 8 ≤ i
  · by_cases h31 : i < 31
    · have e : 8 + (i - 8) = i := by omega
      have h23 : i - 8 < 23 := by omega
      simp [h8, h31, e, h23]
    · have h23 : ¬ (i - 8 < 23) := by omega
      have h31b : ¬ (8 + (i - 8) < 31) := by omega
      simp [h8, h23, h31b, h31]
  · simp [h8]

/-- The capacity expression is a non-negative multiple of 256 below 2^31 at
every argument. -/
theorem new_capacity_aligned (n : Int) :
    0 ≤ new_capacity n ∧ new_capacity n % 256 = 0 ∧ new_capacity n < 2147483648 := by
  unfold new_capacity
  rw [land_mask]
  generalize ((n + 257) % 4294967296).toNat = y
  simp only [Int.ofNat_eq_coe]
  push_cast
  omega

/-- Where n + 257 does not overflow, the capacity expression is n + 257 rounded
down to a multiple of 256. -/
theorem new_capacity_round_down (n : Int) (hn : 0 ≤ n) (hmax : n ≤ 2147483390) :
    new_capacity n = (n + 257) / 256 * 256 := by
  unfold new_capacity
  rw [land_mask]
  have hy : ((((n + 257) % 4294967296).toNat : Nat) : Int) = n + 257 := by omega
  generalize ((n + 257) % 4294967296).toNat = y at hy
  simp only [Int.ofNat_eq_coe]
  push_cast
  omega

/-- The sizing step keeps n_buf a non-negative multiple of 256. -/
theorem resize_aligned (a : Allocator) (s : Scratch) (m : Int)
    (h : 0 ≤ s.n_buf ∧ s.n_buf % 256 = 0) :
    0 ≤ (resize a s m).n_buf ∧ (resize a s m).n_buf % 256 = 0 := by
  unfold resize
  by_cases hle : m ≤ s.n_buf
  · rw [if_pos hle]
    exact ⟨(new_capacity_aligned m).1, (new_capacity_aligned m).2.1⟩
  · rw [if_neg hle]
    exact h

/-- A call of either entry point that returns has the capacity the sizing step
computed for its effective length, and a block of the size the sizing step
left. -/
theorem entry_capacity (a : Allocator) (s r : Scratch) (t : List uchar) (n : Int)
    (h : Apple.fl_latin1_to_local a s t n = .ok r ∨ Apple.fl_local_to_latin1 a s t n = .ok r) :
    ∃ m, effective_length t n = .ok m ∧ r.n_buf = (resize a s m).n_buf ∧
      avail r.buf = avail (resize a s m).buf := by
  cases he : effective_length t n with
  | error e =>
    rcases h with h | h
    · simp [Apple.fl_latin1_to_local, he, Except.bind] at h
    · simp [Apple.fl_local_to_latin1, he, Except.bind] at h
  | ok m =>
    refine ⟨m, rfl, ?_⟩
    rcases h with h | h
    · simp only [Apple.fl_latin1_to_local, he, Except.bind] at h
      cases hl : Apple.loop_latin1_to_local m.toNat t 0 (resize a s m).buf with
      | error e => rw [hl] at h; simp at h
      | ok b1 =>
        rw [hl] at h
        simp only [Except.ok.injEq] at h
        subst h
        exact ⟨rfl, (loop_latin1_frame _ _ _ _ _ hl).1⟩
    · simp only [Apple.fl_local_to_latin1, he, Except.bind] at h
      cases hl : Apple.loop_local_to_latin1 m.toNat t 0 (resize a s m).buf with
      | error e => rw [hl] at h; simp at h
      | ok b1 =>
        rw [hl] at h
        simp only [Except.ok.injEq] at h
        subst h
        exact ⟨rfl, (loop_local_frame _ _ _ _ _ hl).1⟩

/-- One call that returns keeps n_buf a non-negative multiple of 256. -/
theorem call_aligned (c : Call) (s r : Scratch) (h : c.run s = .ok r)
    (hs : 0 ≤ s.n_buf ∧ s.n_buf % 256 = 0) : 0 ≤ r.n_buf ∧ r.n_buf % 256 = 0 := by
  have hor : Apple.fl_latin1_to_local c.alloc s c.t c.n = .ok r ∨
      Apple.fl_local_to_latin1 c.alloc s c.t c.n = .ok r := by
    unfold Call.run at h
    cases he : c.entry with
    | latin1_to_local => rw [he] at h; exact Or.inl h
    | local_to_latin1 => rw [he] at h; exact Or.inr h
  obtain ⟨m, _, hcap, _⟩ := entry_capacity c.alloc s r c.t c.n hor
  rw [hcap]
  exact resize_aligned c.alloc s m hs

/-- A run of calls that returns keeps n_buf a non-negative multiple of 256. -/
theorem run_calls_aligned : ∀ (calls : List Call) (s r : Scratch),
    run_calls calls s = .ok r → (0 ≤ s.n_buf ∧ s.n_buf % 256 = 0) →
    0 ≤ r.n_buf ∧ r.n_buf % 256 = 0 := by
  intro calls
  induction calls with
  | nil =>
    intro s r h hs
    simp only [run_calls, Except.ok.injEq] at h
    subst h
    exact hs
  | cons c cs ih =>
    intro s r h hs
    simp only [run_calls] at h
    cases hc : c.run s with
    | error e => rw [hc] at h; simp [Except.bind] at h
    | ok s1 =>
      rw [hc] at h
      exact ih s1 r h (call_aligned c s s1 hc hs)

/-! ## Capacity claims -/

/-- C11: capacity alignment invariant.  In every scratch state reached from the
initial state by a sequence of calls to either entry point whose lengths n
satisfy -1 <= n <= 2^31 - 258 (for n = -1, the length strlen finds is in that
range), the recorded capacity n_buf is a non-negative multiple of 256. -/
theorem capacity_aligned (calls : List Call) (s : Scratch)
    (_hrange : ∀ c ∈ calls, c.in_range)
    (hrun : run_calls calls Scratch.initial = .ok s) :
    0 ≤ s.n_buf ∧ s.n_buf % 256 = 0 :=
  run_calls_aligned calls Scratch.initial s hrun ⟨by decide, by decide⟩

set_option maxRecDepth 100000 in
/-- Instance of the theorem for C11 on the two calls of sample_calls, which end with
n_buf = 256. -/
theorem capacity_aligned_witness :
    (∀ c ∈ sample_calls, c.in_range) ∧
    run_calls sample_calls Scratch.initial
      = .ok { buf := some (0x41 :: List.replicate 255 0), n_buf := 256 } ∧
    (0 ≤ (Scratch.mk (some (0x41 :: List.replicate 255 0)) 256).n_buf ∧
      (Scratch.mk (some (0x41 :: List.replicate 255 0)) 256).n_buf % 256 = 0) := by
  have hrange : ∀ c ∈ sample_calls, c.in_range := by
    intro c hc
    simp only [sample_calls, List.mem_cons, List.mem_singleton, List.not_mem_nil,
      or_false] at hc
    rcases hc with rfl | rfl
    · refine ⟨by decide, by decide, ?_⟩
      intro h
      exact absurd h (by decide)
    · refine ⟨by decide, by decide, ?_⟩
      intro _ k hk
      have h1 : strlen [0x41, 0x00] = some 1 := by decide
      rw [h1] at hk
      simp only [Option.some.injEq] at hk
      omega
  exact ⟨hrange, rfl, capacity_aligned sample_calls _ hrange rfl⟩

/-- C12, as stated, fails on the empty first call: 0 <= n_buf = 0, so the block
is replaced, and the new capacity is 256, while 0 + 257 rounded up to a
multiple of 256 is 512; the new capacity is not even as large as 0 + 257. -/
theorem replaced_capacity_not_rounded_up :
    (0 : Int) ≤ Scratch.initial.n_buf ∧
    (resize (fill_allocator 0) Scratch.initial 0).n_buf = 256 ∧
    Apple.fl_local_to_latin1 (fill_allocator 0) Scratch.initial [] 0
      = .ok (Scratch.block256 0) ∧
    Apple.fl_latin1_to_local (fill_allocator 0) Scratch.initial [] 0
      = .ok (Scratch.block256 0) ∧
    spec_align_up (0 + 257) = 512 ∧
    (Scratch.block256 0).n_buf ≠ spec_align_up (0 + 257) ∧
    ¬ ((0 : Int) + 257 ≤ (Scratch.block256 0).n_buf) :=
  ⟨by decide, by decide, rfl, rfl, by decide, by decide, by decide⟩

/-- C12, amended: whenever a call with length n (0 <= n <= 2^31 - 258) replaces
the scratch block (n <= n_buf), the new capacity is n + 257 rounded down to a
multiple of 256, that is the greatest multiple of 256 that is <= n + 257; a
call of either entry point that returns has this capacity. -/
theorem replaced_capacity_rounds_down (a : Allocator) (s : Scratch) (t : List uchar) (n : Int)
    (hn : 0 ≤ n) (hmax : n ≤ 2147483390) (hle : n ≤ s.n_buf) :
    (resize a s n).n_buf = (n + 257) / 256 * 256 ∧
      (resize a s n).n_buf % 256 = 0 ∧
      (resize a s n).n_buf ≤ n + 257 ∧
      (∀ m : Int, m % 256 = 0 → m ≤ n + 257 → m ≤ (resize a s n).n_buf) ∧
      ∀ r, Apple.fl_latin1_to_local a s t n = .ok r ∨ Apple.fl_local_to_latin1 a s t n = .ok r →
        r.n_buf = (resize a s n).n_buf := by
  have hcap : (resize a s n).n_buf = (n + 257) / 256 * 256 := by
    simp only [resize, if_pos hle]
    exact new_capacity_round_down n hn hmax
  refine ⟨hcap, by omega, by omega, ?_, ?_⟩
  · intro m hm hmle
    omega
  · intro r hr
    exact (entry_frame a s r t n hn hr).1

set_option maxRecDepth 100000 in
/-- Instance of the amended theorem for C12 at the empty first call: n = 0 and
n_buf = 0, new capacity 256 = 257 rounded down. -/
theorem replaced_capacity_rounds_down_witness :
    (0 : Int) ≤ 0 ∧ (0 : Int) ≤ 2147483390 ∧ (0 : Int) ≤ Scratch.initial.n_buf ∧
    (resize (fill_allocator 0) Scratch.initial 0).n_buf = 256 ∧
    (resize (fill_allocator 0) Scratch.initial 0).n_buf = ((0 : Int) + 257) / 256 * 256 ∧
    (resize (fill_allocator 0) Scratch.initial 0).n_buf ≤ (0 : Int) + 257 :=
  ⟨by decide, by decide, by decide, by decide,
    (replaced_capacity_rounds_down (fill_allocator 0) Scratch.initial [] 0
      (by decide) (by decide) (by decide)).1,
    (replaced_capacity_rounds_down (fill_allocator 0) Scratch.initial [] 0
      (by decide) (by decide) (by decide)).2.2.1⟩

/-- C13: the reallocation guard as written.  For every scratch state, allocator,
input and length n >= 0 (so n is the effective length): if n <= n_buf the
sizing step drops the old block, takes a new one from malloc and sets n_buf
to (n + 257) & 0x7fffff00; if n > n_buf it leaves buf and n_buf as they were.
Each entry point is its loop run on the block this one sizing step leaves,
with the capacity this step leaves, so both make the same capacity transition
for the same n, and a call that returns has that capacity and block size. -/
theorem guard_as_written (a : Allocator) (s : Scratch) (t : List uchar) (n : Int)
    (hn : 0 ≤ n) :
    (n ≤ s.n_buf →
      resize a s n = { buf := a.malloc (new_capacity n).toNat, n_buf := new_capacity n }) ∧
    (n ≤ 2147483647 →
      new_capacity n = Int.ofNat ((n + 257).toNat &&& 0x7fffff00)) ∧
    (s.n_buf < n → resize a s n = s) ∧
    Apple.fl_latin1_to_local a s t n =
      (Apple.loop_latin1_to_local n.toNat t 0 (resize a s n).buf).map
        (fun b => { buf := b, n_buf := (resize a s n).n_buf }) ∧
    Apple.fl_local_to_latin1 a s t n =
      (Apple.loop_local_to_latin1 n.toNat t 0 (resize a s n).buf).map
        (fun b => { buf := b, n_buf := (resize a s n).n_buf }) ∧
    ∀ r, Apple.fl_latin1_to_local a s t n = .ok r ∨ Apple.fl_local_to_latin1 a s t n = .ok r →
      r.n_buf = (resize a s n).n_buf ∧ avail r.buf = avail (resize a s n).buf := by
  refine ⟨?_, ?_, ?_, ?_, ?_, ?_⟩
  · intro hle
    simp only [resize, if_pos hle]
  · intro h32
    have e : ((n + 257) % 4294967296).toNat = (n + 257).toNat := by omega
    simp only [new_capacity, e]
  · intro hlt
    simp only [resize, if_neg (not_le.mpr hlt)]
  · simp only [Apple.fl_latin1_to_local, effective_length_of_ne t n (by omega), Except.bind]
    cases Apple.loop_latin1_to_local n.toNat t 0 (resize a s n).buf <;> rfl
  · simp only [Apple.fl_local_to_latin1, effective_length_of_ne t n (by omega), Except.bind]
    cases Apple.loop_local_to_latin1 n.toNat t 0 (resize a s n).buf <;> rfl
  · intro r hr
    obtain ⟨h1, h2, _⟩ := entry_frame a s r t n hn hr
    exact ⟨h1, h2⟩

set_option maxRecDepth 100000 in
/-- Instance of the theorem for C13 with capacity 256: length 300 leaves the statics alone,
length 2 replaces the block with one of 256 bytes. -/
theorem guard_as_written_witness :
    (0 : Int) ≤ 300 ∧
    resize (fill_allocator 0xEE) (Scratch.block256 0) 300 = Scratch.block256 0 ∧
    (0 : Int) ≤ 2 ∧
    resize (fill_allocator 0xEE) (Scratch.block256 0) 2
      = { buf := (fill_allocator 0xEE).malloc (new_capacity 2).toNat,
          n_buf := new_capacity 2 } ∧
    new_capacity 2 = 256 :=
  ⟨by decide,
    (guard_as_written (fill_allocator 0xEE) (Scratch.block256 0) (List.replicate 300 0x41) 300
      (by decide)).2.2.1 (by decide),
    by decide,
    (guard_as_written (fill_allocator 0xEE) (Scratch.block256 0) [0x41, 0x42] 2
      (by decide)).1 (by decide),
    by decide⟩

set_option maxRecDepth 100000 in
/-- C14: the call the claim names.  Capacity 512 is reached from the initial
state by an empty call (capacity 256) and a call with length 256 (capacity
512).  A call of either entry point with length 0 then passes the guard
(0 <= 512), replaces the block and sets n_buf to 257 & 0x7fffff00 = 256: the
capacity went down from 512 to 256. -/
theorem capacity_shrinks :
    run_calls
        [{ entry := .local_to_latin1, alloc := fill_allocator 0, t := [], n := 0 },
         { entry := .local_to_latin1, alloc := fill_allocator 0,
           t := List.replicate 256 0x41, n := 256 }]
        Scratch.initial
      = .ok { buf := some (List.replicate 256 0x41 ++ List.replicate 256 0), n_buf := 512 } ∧
    Apple.fl_latin1_to_local (fill_allocator 0)
        { buf := some (List.replicate 256 0x41 ++ List.replicate 256 0), n_buf := 512 } [] 0
      = .ok (Scratch.block256 0) ∧
    Apple.fl_local_to_latin1 (fill_allocator 0)
        { buf := some (List.replicate 256 0x41 ++ List.replicate 256 0), n_buf := 512 } [] 0
      = .ok (Scratch.block256 0) ∧
    (Scratch.block256 0).n_buf < 512 :=
  ⟨rfl, rfl, rfl, by decide⟩

/-! ## The loop count -/

/-- A length below -1 passes through both entry points without a single
iteration: the call returns the statics as the sizing step left them. -/
theorem negative_length_returns (a : Allocator) (s : Scratch) (t : List uchar) (n : Int)
    (h : n < -1) :
    Apple.fl_latin1_to_local a s t n = .ok (resize a s n) ∧
    Apple.fl_local_to_latin1 a s t n = .ok (resize a s n) := by
  have h0 : n.toNat = 0 := by omega
  constructor
  · simp only [Apple.fl_latin1_to_local, effective_length_of_ne t n (by omega), Except.bind,
      h0, Apple.loop_latin1_to_local]
  · simp only [Apple.fl_local_to_latin1, effective_length_of_ne t n (by omega), Except.bind,
      h0, Apple.loop_local_to_latin1]

set_option maxRecDepth 100000 in
/-- C15: a first call with three input bytes and length 3.  The input holds the
three bytes the loop is to read, but the sizing step is skipped (3 <= 0 is
false), buf is the null pointer, and the store of the first iteration goes
through it: for either entry point and any allocator the loop does not get
through its three iterations and the call does not return. -/
theorem loop_stops_at_null_store (a : Allocator) :
    ([0x41, 0x42, 0x43] : List uchar).length = 3 ∧
    resize a Scratch.initial 3 = Scratch.initial ∧
    Apple.fl_latin1_to_local a Scratch.initial [0x41, 0x42, 0x43] 3 = .error .null_write ∧
    Apple.fl_local_to_latin1 a Scratch.initial [0x41, 0x42, 0x43] 3 = .error .null_write :=
  ⟨rfl, rfl, rfl, rfl⟩

/-! ## The forward entry point as it is -/

/-- C16: fl_latin1_to_local never advances its output position.  For every
input t and every length n >= 1 with n <= |t|, in a state and under an
allocator where the block has room for one byte after the sizing step, the
call returns; offset 0 of the block then holds the image of the last input
byte t[n-1] (latin2roman[t[n-1] - 128] if t[n-1] > 127, else t[n-1]), and
every offset j >= 1 holds what it held after the sizing step. -/
theorem latin1_to_local_keeps_last_byte (a : Allocator) (s : Scratch) (t : List uchar)
    (n : Int) (hn : 1 ≤ n) (hlen : n ≤ (t.length : Int))
    (hbuf : 1 ≤ avail (resize a s n).buf) :
    ∃ r last, Apple.fl_latin1_to_local a s t n = .ok r ∧
      t[n.toNat - 1]? = some last ∧
      peek r.buf 0 =
        some (if last.val > 127 then latin2roman.getD (last.val - 128) 0 else last) ∧
      (∀ j, 1 ≤ j → peek r.buf j = peek (resize a s n).buf j) ∧
      avail r.buf = avail (resize a s n).buf := by
  obtain ⟨r, hr, _, hav, hlast, hfr⟩ := latin1_to_local_entry a s t n hn hlen hbuf
  have hi : n.toNat - 1 < t.length := by omega
  refine ⟨r, t[n.toNat - 1], hr, List.getElem?_eq_getElem hi, ?_, ?_, hav⟩
  · rw [hlast, List.getElem?_eq_getElem hi]
    rfl
  · intro j hj
    exact hfr j (by omega)

set_option maxRecDepth 100000 in
/-- Instance of the theorem for C16: the bytes 0x41, 0x93 with length 2 into a fresh block
filled with 0xEE. -/
theorem latin1_to_local_keeps_last_byte_witness :
    (1 : Int) ≤ 2 ∧ (2 : Int) ≤ (([0x41, 0x93] : List uchar).length : Int) ∧
    1 ≤ avail (resize (fill_allocator 0xEE) (Scratch.block256 0) 2).buf ∧
    ∃ r last,
      Apple.fl_latin1_to_local (fill_allocator 0xEE) (Scratch.block256 0) [0x41, 0x93] 2
        = .ok r ∧
      ([0x41, 0x93] : List uchar)[(2 : Int).toNat - 1]? = some last ∧
      peek r.buf 0 =
        some (if last.val > 127 then latin2roman.getD (last.val - 128) 0 else last) ∧
      (∀ j, 1 ≤ j →
        peek r.buf j = peek (resize (fill_allocator 0xEE) (Scratch.block256 0) 2).buf j) ∧
      avail r.buf = avail (resize (fill_allocator 0xEE) (Scratch.block256 0) 2).buf :=
  ⟨by decide, by decide, by decide,
    latin1_to_local_keeps_last_byte (fill_allocator 0xEE) (Scratch.block256 0) [0x41, 0x93] 2
      (by decide) (by decide) (by decide)⟩

/-! ## The size of a replaced block -/

/-- C17: actual size of a replaced block.  For 0 <= n <= 2^31 - 258 the new
capacity (n + 257) & 0x7fffff00 equals 256 * floor((n + 257) / 256), the
greatest multiple of 256 that is <= n + 257, so n + 2 <= new capacity
<= n + 257; when a call replaces the block (n <= n_buf) this is the n_buf the
sizing step sets, and a block that malloc hands out for it has exactly that
many bytes, room for the n output bytes and at least two more. -/
theorem replaced_block_size (a : Allocator) (s : Scratch) (n : Int)
    (hn : 0 ≤ n) (hmax : n ≤ 2147483390) (hle : n ≤ s.n_buf) :
    new_capacity n = Int.ofNat ((n + 257).toNat &&& 0x7fffff00) ∧
    new_capacity n = 256 * ((n + 257) / 256) ∧
    (∀ m : Int, m % 256 = 0 → m ≤ n + 257 → m ≤ new_capacity n) ∧
    n + 2 ≤ new_capacity n ∧ new_capacity n ≤ n + 257 ∧
    (resize a s n).n_buf = new_capacity n ∧
    ∀ cells, (resize a s n).buf = some cells →
      (cells.length : Int) = new_capacity n ∧ n + 2 ≤ (cells.length : Int) := by
  have hcap := new_capacity_round_down n hn hmax
  have hres : resize a s n
      = { buf := a.malloc (new_capacity n).toNat, n_buf := new_capacity n } := by
    simp only [resize, if_pos hle]
  refine ⟨?_, by omega, ?_, by omega, by omega, by rw [hres], ?_⟩
  · have e : ((n + 257) % 4294967296).toNat = (n + 257).toNat := by omega
    simp only [new_capacity, e]
  · intro m hm hmle
    omega
  · intro cells hcells
    rw [hres] at hcells
    have hsz := a.malloc_size _ _ hcells
    constructor <;> omega

set_option maxRecDepth 100000 in
/-- Instance of the theorem for C17 at n = 255 with capacity 256: the new capacity is 512 and
the block handed out has 512 bytes. -/
theorem replaced_block_size_witness :
    (0 : Int) ≤ 255 ∧ (255 : Int) ≤ 2147483390 ∧ (255 : Int) ≤ (Scratch.block256 0).n_buf ∧
    new_capacity 255 = 512 ∧
    new_capacity 255 = 256 * (((255 : Int) + 257) / 256) ∧
    (255 : Int) + 2 ≤ new_capacity 255 ∧
    (resize (fill_allocator 0) (Scratch.block256 0) 255).n_buf = new_capacity 255 :=
  ⟨by decide, by decide, by decide, by decide,
    (replaced_block_size (fill_allocator 0) (Scratch.block256 0) 255
      (by decide) (by decide) (by decide)).2.1,
    (replaced_block_size (fill_allocator 0) (Scratch.block256 0) 255
      (by decide) (by decide) (by decide)).2.2.2.1,
    (replaced_block_size (fill_allocator 0) (Scratch.block256 0) 255
      (by decide) (by decide) (by decide)).2.2.2.2.2.1⟩

/-! ## The high bit -/

set_option maxRecDepth 100000 in
/-- Both tables have 128 entries and none of them is below 0x80. -/
theorem table_entries_high :
    latin2roman.length = 128 ∧ roman2latin.length = 128 ∧
    (∀ x ∈ latin2roman, 128 ≤ x.val) ∧ (∀ x ∈ roman2latin, 128 ≤ x.val) := by
  decide

set_option maxRecDepth 100000 in
/-- Both per-byte images keep the high bit and map only zero to zero. -/
theorem table_high_bit : ∀ c : uchar,
    (128 ≤ (to_local_byte c).val ↔ 128 ≤ c.val) ∧ (to_local_byte c = 0 ↔ c = 0) ∧
    (128 ≤ (to_latin1_byte c).val ↔ 128 ≤ c.val) ∧ (to_latin1_byte c = 0 ↔ c = 0) := by
  decide

/-- C18: the high bit is preserved by both mappings.  Each table has 128
entries, all >= 0x80.  For every byte c, each entry point called on [c] with
length 1 (with room for one byte after the sizing step) returns a first byte
y with y >= 128 iff c >= 128 and y = 0 iff c = 0.  And fl_local_to_latin1 on
an input t with length 0 <= n <= |t| (with room for n bytes after the sizing
step) returns a block that has a zero at a position below n exactly where t
has one, so the first zero byte of the output is where the first zero byte of
the input is. -/
theorem high_bit_preserved (a : Allocator) (s : Scratch) (c : uchar) (t : List uchar)
    (n : Int) (hb1 : 1 ≤ avail (resize a s 1).buf)
    (hn : 0 ≤ n) (hlen : n ≤ (t.length : Int)) (hbuf : n.toNat ≤ avail (resize a s n).buf) :
    (latin2roman.length = 128 ∧ roman2latin.length = 128 ∧
      (∀ x ∈ latin2roman, 128 ≤ x.val) ∧ (∀ x ∈ roman2latin, 128 ≤ x.val)) ∧
    (∃ r y, Apple.fl_latin1_to_local a s [c] 1 = .ok r ∧ peek r.buf 0 = some y ∧
      (128 ≤ y.val ↔ 128 ≤ c.val) ∧ (y = 0 ↔ c = 0)) ∧
    (∃ r y, Apple.fl_local_to_latin1 a s [c] 1 = .ok r ∧ peek r.buf 0 = some y ∧
      (128 ≤ y.val ↔ 128 ≤ c.val) ∧ (y = 0 ↔ c = 0)) ∧
    (∃ r, Apple.fl_local_to_latin1 a s t n = .ok r ∧
      (∀ i : Nat, (i : Int) < n → (peek r.buf i = some 0 ↔ t[i]? = some 0)) ∧
      ∀ k : Nat, (k : Int) < n →
        ((peek r.buf k = some 0 ∧ ∀ i, i < k → peek r.buf i ≠ some 0) ↔
          (t[k]? = some 0 ∧ ∀ i, i < k → t[i]? ≠ some 0))) := by
  obtain ⟨r1, hr1, _, _, hlast, _⟩ :=
    latin1_to_local_entry a s [c] 1 (by decide) (by simp) hb1
  obtain ⟨r2, hr2, _, _, hwin2, _⟩ :=
    local_to_latin1_entry a s [c] 1 (by decide) (by simp) (by simpa using hb1)
  obtain ⟨r, hr, _, _, hwin, _⟩ := local_to_latin1_entry a s t n hn hlen hbuf
  have h2 := hwin2 0 (by decide)
  simp only [Int.toNat_one, Nat.sub_self, List.getElem?_cons_zero, Option.map_some'] at hlast h2
  have htab := table_high_bit c
  have hpt : ∀ i : Nat, (i : Int) < n → (peek r.buf i = some 0 ↔ t[i]? = some 0) := by
    intro i hi
    have hit : i < t.length := by omega
    rw [hwin i (by omega), List.getElem?_eq_getElem hit]
    simp only [Option.map_some', Option.some.injEq]
    exact (table_high_bit t[i]).2.2.2
  refine ⟨table_entries_high, ⟨r1, _, hr1, hlast, htab.1, htab.2.1⟩,
    ⟨r2, _, hr2, h2, htab.2.2.1, htab.2.2.2⟩, ⟨r, hr, hpt, ?_⟩⟩
  intro k hk
  constructor
  · rintro ⟨hz, hfirst⟩
    refine ⟨(hpt k hk).1 hz, ?_⟩
    intro i hi hti
    exact hfirst i hi ((hpt i (by omega)).2 hti)
  · rintro ⟨hz, hfirst⟩
    refine ⟨(hpt k hk).2 hz, ?_⟩
    intro i hi hpi
    exact hfirst i hi ((hpt i (by omega)).1 hpi)

set_option maxRecDepth 100000 in
/-- Instance of the theorem for C18: the byte 0xD2 and the input 0x41, 0xD2, 0x00, 0x42 with
length 4, whose output 0x41, 0x93, 0x00, 0x42 has its first zero at index 2 as well. -/
theorem high_bit_preserved_witness :
    1 ≤ avail (resize (fill_allocator 0xEE) (Scratch.block256 0) 1).buf ∧
    (0 : Int) ≤ 4 ∧ (4 : Int) ≤ (([0x41, 0xD2, 0x00, 0x42] : List uchar).length : Int) ∧
    (4 : Int).toNat ≤ avail (resize (fill_allocator 0xEE) (Scratch.block256 0) 4).buf ∧
    Apple.fl_local_to_latin1 (fill_allocator 0xEE) (Scratch.block256 0)
        [0x41, 0xD2, 0x00, 0x42] 4
      = .ok { buf := some (0x41 :: 0x93 :: 0x00 :: 0x42 :: List.replicate 252 0xEE),
              n_buf := 256 } ∧
    (∃ r y, Apple.fl_latin1_to_local (fill_allocator 0xEE) (Scratch.block256 0) [0xD2] 1
        = .ok r ∧ peek r.buf 0 = some y ∧
      (128 ≤ y.val ↔ 128 ≤ ((0xD2 : uchar)).val) ∧ (y = 0 ↔ (0xD2 : uchar) = 0)) :=
  ⟨by decide, by decide, by decide, by decide, rfl,
    (high_bit_preserved (fill_allocator 0xEE) (Scratch.block256 0) 0xD2
      [0x41, 0xD2, 0x00, 0x42] 4 (by decide) (by decide) (by decide) (by decide)).2.1⟩

end FlEncodingLatin1
